import Mathlib

/-!
Shallow embedding of `kge/util/sampler.py`: negative sampling for
knowledge-graph embedding training (sampler construction, uniform and
frequency strategies, shared sampling, and the filter-and-resample engine
with its standard and numba fast paths).

Randomness is embedded as an explicit stream `rng : Nat → Nat` together with a
counter `k`: the value of the k-th elementary draw of the process is derived
from `rng k`; a uniform draw in `[0, V)` is `rng k % V`.  The rejection loops
of the filter engine, whose running time depends on the drawn values, carry
explicit fuel and return `none` when the fuel runs out, so that
`∀ fuel, … = none` renders "the loop never terminates" and
`∃ fuel, … = some …` renders "the loop terminates".
-/

/-- The three slots (`SLOTS = [0, 1, 2]` in the source). -/
abbrev Slot := Fin 3

/-- Subject slot (`S = 0`). -/
def S : Slot := 0

/-- Predicate slot (`P = 1`). -/
def P : Slot := 1

/-- Object slot (`O = 2`). -/
def O : Slot := 2

/-- `SLOT_STR = ["s", "p", "o"]`. -/
def SLOT_STR (slot : Slot) : String :=
  if slot = S then "s" else if slot = P then "p" else "o"

/-- `["po", "so", "sp"][slot]`, the pair string used to name positive-pair
indexes. -/
def pair_str (slot : Slot) : String :=
  if slot = S then "po" else if slot = P then "so" else "sp"

/-- The index name `f"{split}_{pair}_to_{slot_str}"` requested from the
dataset. -/
def indexName (split : String) (slot : Slot) : String :=
  split ++ "_" ++ pair_str slot ++ "_to_" ++ SLOT_STR slot

/-- The configuration and dataset values read by `KgeSampler.__init__`:
per-slot `num_samples.{s,p,o}` and `filtering.{s,p,o}` options, the `shared`
flag, `negative_sampling.filtering.split` and `train.split`, the
`filtering.implementation` choice, and the dataset's entity/relation counts. -/
structure SamplerConfig where
  num_samples_s : Int
  num_samples_p : Int
  num_samples_o : Int
  filtering_s : Bool
  filtering_p : Bool
  filtering_o : Bool
  shared : Bool
  filtering_split : String
  train_split : String
  filtering_implementation : String
  num_entities : Nat
  num_relations : Nat
deriving DecidableEq, Repr

/-- The state of a constructed `KgeSampler`: resolved per-slot sample counts
and filtering flags, the resolved filtering split, the
`filter_implementation` attribute (absent when no slot filters), and the list
of positive-pair index names requested from the dataset at construction. -/
structure SamplerState where
  num_samples_s : Int
  num_samples_p : Int
  num_samples_o : Int
  filtering_s : Bool
  filtering_p : Bool
  filtering_o : Bool
  shared : Bool
  filtering_split : String
  filter_implementation : Option String
  num_entities : Nat
  num_relations : Nat
  requested_indexes : List String
deriving DecidableEq, Repr

/-- `self.num_samples[slot]`. -/
def SamplerState.num_samples (st : SamplerState) (slot : Slot) : Int :=
  if slot = S then st.num_samples_s
  else if slot = P then st.num_samples_p
  else st.num_samples_o

/-- `self.filter_positives[slot]`. -/
def SamplerState.filter_positives (st : SamplerState) (slot : Slot) : Bool :=
  if slot = S then st.filtering_s
  else if slot = P then st.filtering_p
  else st.filtering_o

/-- `self.vocabulary_size[slot] = num_relations if slot == P else
num_entities`. -/
def SamplerState.vocabulary_size (st : SamplerState) (slot : Slot) : Nat :=
  if slot = P then st.num_relations else st.num_entities

/-- Errors raised by `KgeSampler.__init__`: the `ValueError` for filtering
combined with shared sampling, and the `check_option` failure for an invalid
configuration value. -/
inductive ConfigError where
  | sharedFiltering
  | invalidOption (key : String)
deriving DecidableEq, Repr

/-- The values accepted by `check_option("filtering.implementation", ...)`. -/
def valid_filtering_implementations : List String :=
  ["standard", "fast", "fast_if_available"]

/-- `KgeSampler.__init__`: reads the options, substitutes `train.split` when
the filtering split is empty, records the index names requested for filtered
slots, raises when filtering is combined with shared sampling, validates
`filtering.implementation` when some slot filters, and finally applies the
auto-configuration of negative sample counts (slot order `(S, O), (P, None),
(O, S)`, in place). -/
def initSampler (cfg : SamplerConfig) : Except ConfigError SamplerState :=
  let fsplit := if cfg.filtering_split = "" then cfg.train_split else cfg.filtering_split
  let requested :=
    (if cfg.filtering_s then [indexName fsplit S] else []) ++
    (if cfg.filtering_p then [indexName fsplit P] else []) ++
    (if cfg.filtering_o then [indexName fsplit O] else [])
  let anyFiltering := cfg.filtering_s || cfg.filtering_p || cfg.filtering_o
  if anyFiltering && cfg.shared then
    .error .sharedFiltering
  else if anyFiltering && !(valid_filtering_implementations.contains cfg.filtering_implementation) then
    .error (.invalidOption "filtering.implementation")
  else
    let ns_s :=
      if cfg.num_samples_s < 0 then
        (if cfg.num_samples_o > 0 then cfg.num_samples_o else 0)
      else cfg.num_samples_s
    let ns_p := if cfg.num_samples_p < 0 then 0 else cfg.num_samples_p
    let ns_o :=
      if cfg.num_samples_o < 0 then
        (if ns_s > 0 then ns_s else 0)
      else cfg.num_samples_o
    .ok
      { num_samples_s := ns_s
        num_samples_p := ns_p
        num_samples_o := ns_o
        filtering_s := cfg.filtering_s
        filtering_p := cfg.filtering_p
        filtering_o := cfg.filtering_o
        shared := cfg.shared
        filtering_split := fsplit
        filter_implementation :=
          if anyFiltering then some cfg.filtering_implementation else none
        num_entities := cfg.num_entities
        num_relations := cfg.num_relations
        requested_indexes := requested }

/-- The two sampling strategies produced by `KgeSampler.create`. -/
inductive Strategy where
  | uniform
  | frequency
deriving DecidableEq, Repr

/-- Modelled from the spec: `torch._multinomial_alias_draw` (external to this
repository) performs an O(1) alias-table draw producing a value in
`[0, vocabularySize)`; which value the weighted choice selects as a function
of the random source is abstracted as `rng j % V`. -/
def aliasDraw (V : Nat) (rng : Nat → Nat) (j : Nat) : Nat := rng j % V

/-- The elementary per-value draw of a strategy: `torch.randint` for the
uniform sampler, an alias-table draw for the frequency sampler. -/
def drawOneOf (strat : Strategy) (V : Nat) (rng : Nat → Nat) : Nat → Nat :=
  match strat with
  | .uniform => fun j => rng j % V
  | .frequency => fun j => aliasDraw V rng j

/-- `KgeUniformSampler._sample`: `torch.randint(vocabulary_size[slot],
(batch_size, num_samples))`, a `b × n` matrix of independent uniform draws
(laid out row-major on the draw stream). -/
def uniform_sample_matrix (V : Nat) (rng : Nat → Nat) (k b n : Nat) :
    List (List Nat) :=
  (List.range b).map (fun i => (List.range n).map (fun j => rng (k + (i * n + j)) % V))

/-- `KgeFrequencySampler._sample`: an empty matrix when `num_samples == 0`
(no draw is performed), otherwise `batch_size * num_samples` alias draws
reshaped to a `b × n` matrix. -/
def frequency_sample_matrix (V : Nat) (rng : Nat → Nat) (k b n : Nat) :
    List (List Nat) :=
  if n = 0 then List.replicate b []
  else (List.range b).map (fun i => (List.range n).map (fun j => aliasDraw V rng (k + (i * n + j))))

/-- Dispatch of `self._sample` over the two strategies. -/
def strat_sample (strat : Strategy) (V : Nat) (rng : Nat → Nat) (k b n : Nat) :
    List (List Nat) :=
  match strat with
  | .uniform => uniform_sample_matrix V rng k b n
  | .frequency => frequency_sample_matrix V rng k b n

/-- `self._sample_shared(...)`: `self._sample(torch.empty(1), slot,
num_samples).view(-1)` — one batch row of draws, flattened (both strategies
implement it this way). -/
def strat_sample_shared (strat : Strategy) (V : Nat) (rng : Nat → Nat) (k n : Nat) :
    List Nat :=
  (strat_sample strat V rng k 1 n).flatten

/-- Modelled from the spec: `where_in` from `kge.indexing` (not under `src/`)
returns the indices of the entries of `a` that are (or with `not_in`, are
not) present in `positives`. -/
def where_in (a positives : List Nat) (not_in : Bool) : List Nat :=
  (List.range a.length).filter (fun j => decide (a.getD j 0 ∈ positives) != not_in)

/-- The numpy fancy assignment `negative_samples[i, idxs] = vals` (and the
equivalent explicit numba loop): write the t-th value at position `idxs[t]`. -/
def write_values : List Nat → List Nat → List Nat → List Nat
  | row, j :: idxs, v :: vs => write_values (row.set j v) idxs vs
  | row, _, _ => row

/-- The `num_remaining` consecutive fresh draws of one loop iteration. -/
def fresh_window (drawOne : Nat → Nat) (k n : Nat) : List Nat :=
  (List.range n).map (fun j => drawOne (k + j))

/-- The accepted (non-positive) draws among `n` consecutive fresh draws
starting at stream position `k`, in draw order. -/
def seg_good (drawOne : Nat → Nat) (positives : List Nat) (k n : Nat) : List Nat :=
  (fresh_window drawOne k n).filter (fun v => decide (v ∉ positives))

/-- Values written by the standard implementation: the accepted fresh draws
`new_samples[tn_idx]` themselves. -/
def std_vals : List Nat → List Nat → List Nat := fun _ tn => tn

/-- Values written by the numba fast implementation: `new_samples[ctr]` for
`ctr = 0, …, len(idx) - 1`, i.e. the first `len(idx)` fresh draws whether or
not they were accepted. -/
def numba_vals : List Nat → List Nat → List Nat :=
  fun new_samples tn => new_samples.take tn.length

/-- The per-row rejection loop (`while num_remaining:`) shared by
`KgeSampler._filter_and_resample` and
`KgeUniformSampler._filter_and_resample_numba`.  Each iteration draws
`num_remaining` fresh candidates, keeps those not among the positives
(`tn`), and writes `vals new_samples tn` into the next `tn.length` still
unresolved colliding positions; `vals` is `std_vals` for the standard path
and `numba_vals` for the numba path.  `fuel` bounds the number of
iterations; `none` means the loop has not terminated within the fuel. -/
def resample_loop (drawOne : Nat → Nat) (vals : List Nat → List Nat → List Nat)
    (positives resample_idx : List Nat) :
    List Nat → Nat → Nat → Nat → Option (List Nat × Nat)
  | row, num_found, k, fuel =>
    let num_remaining := resample_idx.length - num_found
    if num_remaining = 0 then some (row, k)
    else
      match fuel with
      | 0 => none
      | fuel + 1 =>
          let new_samples := fresh_window drawOne k num_remaining
          let tn := new_samples.filter (fun v => decide (v ∉ positives))
          let row' := write_values row ((resample_idx.drop num_found).take tn.length)
            (vals new_samples tn)
          resample_loop drawOne vals positives resample_idx row'
            (num_found + tn.length) (k + num_remaining) fuel

/-- One row of the filter-and-resample engine: compute the colliding
positions `resample_idx = where_in(row, positives)` and run the rejection
loop from `num_found = 0`. -/
def filter_row (drawOne : Nat → Nat) (vals : List Nat → List Nat → List Nat)
    (positives row : List Nat) (k fuel : Nat) : Option (List Nat × Nat) :=
  resample_loop drawOne vals positives (where_in row positives false) row 0 k fuel

/-- The `for i in range(batch_size)` loop of both filter implementations:
process each row against the positive set of its pair, threading the draw
counter. -/
def filter_rows (drawOne : Nat → Nat) (vals : List Nat → List Nat → List Nat)
    (positivesOf : Nat × Nat → List Nat) :
    List (Nat × Nat) → List (List Nat) → Nat → Nat → Option (List (List Nat) × Nat)
  | pr :: prs, row :: rows, k, fuel =>
    match filter_row drawOne vals (positivesOf pr) row k fuel with
    | some (row', k') =>
      match filter_rows drawOne vals positivesOf prs rows k' fuel with
      | some (rows', k'') => some (row' :: rows', k'')
      | none => none
    | none => none
  | _, rows, k, _ => some (rows, k)

/-- `positive_triples[:, cols]` for `cols = [[P, O], [S, O], [S, P]][slot]`:
the key into the positive-pair index. -/
def pairOf (slot : Slot) (t : Nat × Nat × Nat) : Nat × Nat :=
  if slot = S then (t.2.1, t.2.2)
  else if slot = P then (t.1, t.2.2)
  else (t.1, t.2.1)

/-- `KgeSampler._filter_and_resample` (standard implementation): look up the
positive-pair index named from the filtering split, then clean every row,
redrawing via the strategy's own `_sample`. -/
def filter_and_resample (strat : Strategy) (st : SamplerState)
    (index : String → Nat × Nat → List Nat) (rng : Nat → Nat) (slot : Slot)
    (negative_samples : List (List Nat)) (positive_triples : List (Nat × Nat × Nat))
    (k fuel : Nat) : Option (List (List Nat) × Nat) :=
  filter_rows (drawOneOf strat (st.vocabulary_size slot) rng) std_vals
    (index (indexName st.filtering_split slot))
    (positive_triples.map (pairOf slot)) negative_samples k fuel

/-- `KgeUniformSampler._filter_and_resample_fast` together with the numba
kernel `_filter_and_resample_numba`: same per-row loop, fresh draws via
`np.random.randint(0, voc_size, num_remaining)`, values written per
`numba_vals`. -/
def filter_and_resample_fast_uniform (st : SamplerState)
    (index : String → Nat × Nat → List Nat) (rng : Nat → Nat) (slot : Slot)
    (negative_samples : List (List Nat)) (positive_triples : List (Nat × Nat × Nat))
    (k fuel : Nat) : Option (List (List Nat) × Nat) :=
  filter_rows (fun j => rng j % st.vocabulary_size slot) numba_vals
    (index (indexName st.filtering_split slot))
    (positive_triples.map (pairOf slot)) negative_samples k fuel

/-- Dispatch of `self._filter_and_resample_fast`: the uniform sampler
overrides it, the frequency sampler inherits the base method which raises
`NotImplementedError` (rendered as the outer `none`). -/
def filter_and_resample_fast (strat : Strategy) (st : SamplerState)
    (index : String → Nat × Nat → List Nat) (rng : Nat → Nat) (slot : Slot)
    (negative_samples : List (List Nat)) (positive_triples : List (Nat × Nat × Nat))
    (k fuel : Nat) : Option (Option (List (List Nat) × Nat)) :=
  match strat with
  | .uniform =>
    some (filter_and_resample_fast_uniform st index rng slot negative_samples
      positive_triples k fuel)
  | .frequency => none

/-- Outcome of one `sample` call: a returned matrix with the (possibly
updated) sampler state and draw counter, an escaped `NotImplementedError`,
or a rejection loop that did not terminate within the fuel. -/
inductive SampleResult where
  | ok (m : List (List Nat)) (st : SamplerState) (k : Nat)
  | notImplemented
  | diverges
deriving DecidableEq, Repr

/-- The raw negative matrix drawn by `sample` before any filtering: the
shared vector `expand`ed to every row when `shared` is set, else independent
per-row draws via the strategy. -/
def raw_negatives (strat : Strategy) (st : SamplerState) (rng : Nat → Nat)
    (k b n : Nat) (slot : Slot) : List (List Nat) :=
  if st.shared then
    List.replicate b (strat_sample_shared strat (st.vocabulary_size slot) rng k n)
  else strat_sample strat (st.vocabulary_size slot) rng k b n

/-- `KgeSampler.sample`: default the sample count from the slot
configuration, draw the raw matrix (one shared vector broadcast to every row
when `shared` is set, else independent per-row draws), then, if the slot filters,
dispatch on `self.filter_implementation` — `"fast"`, `"standard"`, or the
`try fast / except NotImplementedError` fallback that permanently records the
resolved choice. -/
def sample (strat : Strategy) (st : SamplerState)
    (index : String → Nat × Nat → List Nat) (rng : Nat → Nat) (k : Nat)
    (positive_triples : List (Nat × Nat × Nat)) (slot : Slot)
    (num_samples : Option Nat) (fuel : Nat) : SampleResult :=
  let n := num_samples.getD (st.num_samples slot).toNat
  let b := positive_triples.length
  let raw := raw_negatives strat st rng k b n slot
  let k1 := if st.shared then k + n else k + b * n
  if st.filter_positives slot then
    if st.filter_implementation = some "fast" then
      match filter_and_resample_fast strat st index rng slot raw positive_triples k1 fuel with
      | none => .notImplemented
      | some none => .diverges
      | some (some (m, k2)) => .ok m st k2
    else if st.filter_implementation = some "standard" then
      match filter_and_resample strat st index rng slot raw positive_triples k1 fuel with
      | some (m, k2) => .ok m st k2
      | none => .diverges
    else
      match filter_and_resample_fast strat st index rng slot raw positive_triples k1 fuel with
      | some (some (m, k2)) => .ok m { st with filter_implementation := some "fast" } k2
      | some none => .diverges
      | none =>
        match filter_and_resample strat st index rng slot raw positive_triples k1 fuel with
        | some (m, k2) => .ok m { st with filter_implementation := some "standard" } k2
        | none => .diverges
  else .ok raw st k1

theorem num_samples_S (st : SamplerState) : st.num_samples S = st.num_samples_s := rfl

theorem num_samples_P (st : SamplerState) : st.num_samples P = st.num_samples_p := rfl

theorem num_samples_O (st : SamplerState) : st.num_samples O = st.num_samples_o := rfl

theorem filter_positives_S (st : SamplerState) : st.filter_positives S = st.filtering_s := rfl

theorem filter_positives_P (st : SamplerState) : st.filter_positives P = st.filtering_p := rfl

theorem filter_positives_O (st : SamplerState) : st.filter_positives O = st.filtering_o := rfl

/-- C6: at construction, a negative `numSamples[subject]` is set to
`numSamples[object]` when that is positive and to `0` otherwise; a negative
`numSamples[object]` is set to `numSamples[subject]` when that is positive
and to `0` otherwise; `numSamples[predicate]` never copies and a negative
value becomes `0`. -/
theorem C6_num_samples_auto_derivation (cfg : SamplerConfig) (st : SamplerState)
    (h : initSampler cfg = .ok st) :
    st.num_samples S =
      (if cfg.num_samples_s < 0 then
        (if 0 < cfg.num_samples_o then cfg.num_samples_o else 0)
       else cfg.num_samples_s) ∧
    st.num_samples O =
      (if cfg.num_samples_o < 0 then
        (if 0 < cfg.num_samples_s then cfg.num_samples_s else 0)
       else cfg.num_samples_o) ∧
    st.num_samples P = (if cfg.num_samples_p < 0 then 0 else cfg.num_samples_p) := by
  by_cases h1 : ((cfg.filtering_s || cfg.filtering_p || cfg.filtering_o) && cfg.shared) = true
  · simp only [initSampler, h1, if_true] at h
    exact absurd h (by simp)
  · by_cases h2 : ((cfg.filtering_s || cfg.filtering_p || cfg.filtering_o) &&
        !(valid_filtering_implementations.contains cfg.filtering_implementation)) = true
    · simp only [initSampler, h1, h2, if_true, Bool.false_eq_true, if_false] at h
      exact absurd h (by simp)
    · simp only [initSampler, h1, h2, Bool.false_eq_true, if_false,
        Except.ok.injEq] at h
      subst h
      refine ⟨?_, ?_, ?_⟩ <;>
        simp only [num_samples_S, num_samples_O, num_samples_P] <;>
        split_ifs <;> omega

theorem C6_num_samples_auto_derivation_witness :
    ((SamplerState.mk 5 0 5 false false false false "train" none 10 7 []).num_samples S = 5 ∧
     (SamplerState.mk 5 0 5 false false false false "train" none 10 7 []).num_samples O = 5 ∧
     (SamplerState.mk 5 0 5 false false false false "train" none 10 7 []).num_samples P = 0) ∧
    ((SamplerState.mk 0 0 0 false false false false "train" none 10 7 []).num_samples S = 0 ∧
     (SamplerState.mk 0 0 0 false false false false "train" none 10 7 []).num_samples O = 0 ∧
     (SamplerState.mk 0 0 0 false false false false "train" none 10 7 []).num_samples P = 0) := by
  have h1 := C6_num_samples_auto_derivation
    (SamplerConfig.mk (-1) 0 5 false false false false "" "train" "standard" 10 7)
    (SamplerState.mk 5 0 5 false false false false "train" none 10 7 []) (by rfl)
  have h2 := C6_num_samples_auto_derivation
    (SamplerConfig.mk (-1) (-2) (-3) false false false false "" "train" "standard" 10 7)
    (SamplerState.mk 0 0 0 false false false false "train" none 10 7 []) (by rfl)
  norm_num at h1 h2
  exact ⟨h1, h2⟩

/-- C7: construction with filtering enabled on some slot while `shared` is
enabled fails with the filtering/shared configuration error; when `shared` is
disabled or no slot filters, that error is not raised. -/
theorem C7_filtering_shared_mutually_exclusive (cfg : SamplerConfig) :
    ((cfg.filtering_s || cfg.filtering_p || cfg.filtering_o) = true → cfg.shared = true →
      initSampler cfg = .error .sharedFiltering) ∧
    ((cfg.filtering_s || cfg.filtering_p || cfg.filtering_o) = false ∨ cfg.shared = false →
      initSampler cfg ≠ .error .sharedFiltering) := by
  constructor
  · intro h1 h2
    unfold initSampler
    simp [h1, h2]
  · intro h
    have hcond : ((cfg.filtering_s || cfg.filtering_p || cfg.filtering_o) && cfg.shared) = false := by
      rcases h with h | h <;> simp [h]
    by_cases h2 : ((cfg.filtering_s || cfg.filtering_p || cfg.filtering_o) &&
        !(valid_filtering_implementations.contains cfg.filtering_implementation)) = true
    · simp only [initSampler, hcond, Bool.false_eq_true, if_false, h2, if_true]
      simp
    · simp only [initSampler, hcond, h2, Bool.false_eq_true, if_false]
      simp

theorem C7_filtering_shared_mutually_exclusive_witness :
    initSampler (SamplerConfig.mk 1 0 1 true false false true "" "train" "standard" 10 7) =
      .error .sharedFiltering ∧
    initSampler (SamplerConfig.mk 1 0 1 true false false false "" "train" "standard" 10 7) ≠
      .error .sharedFiltering :=
  ⟨(C7_filtering_shared_mutually_exclusive
      (SamplerConfig.mk 1 0 1 true false false true "" "train" "standard" 10 7)).1
      (by decide) (by decide),
   (C7_filtering_shared_mutually_exclusive
      (SamplerConfig.mk 1 0 1 true false false false "" "train" "standard" 10 7)).2
      (Or.inr (by decide))⟩

/-- C10: when the configured filtering split is the empty string, the
constructed sampler's filtering split is the training split; consequently
every positive-pair index requested at construction is named from the
training split, and a `sample` call reads the external index provider only
at training-split index names. -/
theorem C10_empty_filtering_split_defaults_to_train (cfg : SamplerConfig) (st : SamplerState)
    (hok : initSampler cfg = .ok st) (hempty : cfg.filtering_split = "") :
    st.filtering_split = cfg.train_split ∧
    (∀ name ∈ st.requested_indexes, ∃ slot, name = indexName cfg.train_split slot) ∧
    (∀ strat index1 index2 rng k triples slot n fuel,
      index1 (indexName cfg.train_split slot) = index2 (indexName cfg.train_split slot) →
      sample strat st index1 rng k triples slot n fuel =
        sample strat st index2 rng k triples slot n fuel) := by
  have hsplit : st.filtering_split = cfg.train_split ∧
      st.requested_indexes =
        (if cfg.filtering_s then [indexName cfg.train_split S] else []) ++
        (if cfg.filtering_p then [indexName cfg.train_split P] else []) ++
        (if cfg.filtering_o then [indexName cfg.train_split O] else []) := by
    by_cases h1 : ((cfg.filtering_s || cfg.filtering_p || cfg.filtering_o) && cfg.shared) = true
    · simp only [initSampler, h1, if_true] at hok
      exact absurd hok (by simp)
    · by_cases h2 : ((cfg.filtering_s || cfg.filtering_p || cfg.filtering_o) &&
          !(valid_filtering_implementations.contains cfg.filtering_implementation)) = true
      · simp only [initSampler, h1, h2, if_true, Bool.false_eq_true, if_false] at hok
        exact absurd hok (by simp)
      · simp only [initSampler, h1, h2, Bool.false_eq_true, if_false,
          Except.ok.injEq, hempty, if_true] at hok
        subst hok
        exact ⟨rfl, rfl⟩
  refine ⟨hsplit.1, ?_, ?_⟩
  · intro name hname
    rw [hsplit.2] at hname
    simp only [List.mem_append] at hname
    rcases hname with (h | h) | h <;> split at h <;>
      simp only [List.mem_singleton, List.not_mem_nil] at h <;>
      first
      | exact absurd h (fun hf => hf)
      | exact ⟨_, h⟩
  · intro strat index1 index2 rng k triples slot n fuel hagree
    rw [← hsplit.1] at hagree
    unfold sample filter_and_resample filter_and_resample_fast
      filter_and_resample_fast_uniform
    rw [hagree]

theorem C10_empty_filtering_split_defaults_to_train_witness :
    (SamplerState.mk 1 0 1 true false false false "train" (some "standard") 10 7
        [indexName "train" S]).filtering_split = "train" ∧
    (∀ name ∈ (SamplerState.mk 1 0 1 true false false false "train" (some "standard") 10 7
        [indexName "train" S]).requested_indexes,
      ∃ slot, name = indexName "train" slot) ∧
    (∀ strat index1 index2 rng k triples slot n fuel,
      index1 (indexName "train" slot) = index2 (indexName "train" slot) →
      sample strat (SamplerState.mk 1 0 1 true false false false "train" (some "standard") 10 7
          [indexName "train" S]) index1 rng k triples slot n fuel =
        sample strat (SamplerState.mk 1 0 1 true false false false "train" (some "standard") 10 7
          [indexName "train" S]) index2 rng k triples slot n fuel) :=
  C10_empty_filtering_split_defaults_to_train
    (SamplerConfig.mk 1 0 1 true false false false "" "train" "standard" 10 7)
    (SamplerState.mk 1 0 1 true false false false "train" (some "standard") 10 7
      [indexName "train" S])
    (by rfl) rfl

/-- C9: with shared sampling enabled (and hence filtering disabled — the
constructor rejects the combination), `sample` draws one length-`n` vector at
the current stream position, independent of the batch contents, and returns
the matrix whose every row is that vector. -/
theorem C9_shared_broadcast (strat : Strategy) (st : SamplerState)
    (index : String → Nat × Nat → List Nat) (rng : Nat → Nat) (k : Nat)
    (positive_triples : List (Nat × Nat × Nat)) (slot : Slot) (n fuel : Nat)
    (hshared : st.shared = true) (hfilter : st.filter_positives slot = false) :
    sample strat st index rng k positive_triples slot (some n) fuel =
      .ok (List.replicate positive_triples.length
        (strat_sample_shared strat (st.vocabulary_size slot) rng k n)) st (k + n) ∧
    (strat_sample_shared strat (st.vocabulary_size slot) rng k n).length = n := by
  constructor
  · unfold sample raw_negatives
    simp [hshared, hfilter]
  · have h1 : List.range 1 = [0] := rfl
    unfold strat_sample_shared strat_sample
    cases strat
    · simp [uniform_sample_matrix, h1, Function.comp]
    · unfold frequency_sample_matrix
      by_cases hn : n = 0
      · simp [hn]
      · simp [hn, h1, Function.comp]

theorem C9_shared_broadcast_witness :
    sample .uniform
        (SamplerState.mk 3 0 3 false false false true "train" none 10 7 [])
        (fun _ _ => []) (fun j => j) 0 [(0, 1, 2), (3, 4, 5)] S (some 3) 5 =
      .ok (List.replicate 2
        (strat_sample_shared .uniform 10 (fun j => j) 0 3))
        (SamplerState.mk 3 0 3 false false false true "train" none 10 7 []) 3 ∧
    (strat_sample_shared .uniform 10 (fun j => j) 0 3).length = 3 :=
  C9_shared_broadcast .uniform
    (SamplerState.mk 3 0 3 false false false true "train" none 10 7 [])
    (fun _ _ => []) (fun j => j) 0 [(0, 1, 2), (3, 4, 5)] S 3 5 rfl rfl

/-- C8: under `fast_if_available` with the frequency strategy (which lacks
the fast filter path), a filtered `sample` call behaves exactly as with the
implementation preset to `standard` — in particular a successful call
records `standard` in the returned state — and once the implementation is
`standard`, any successful call leaves the state unchanged, so the
resolved-implementation state transitions at most once. -/
theorem C8_fast_if_available_resolves_to_standard (st : SamplerState)
    (index : String → Nat × Nat → List Nat) (rng : Nat → Nat) (k : Nat)
    (positive_triples : List (Nat × Nat × Nat)) (slot : Slot)
    (num_samples : Option Nat) (fuel : Nat) :
    (st.filter_positives slot = true →
      st.filter_implementation = some "fast_if_available" →
      sample .frequency st index rng k positive_triples slot num_samples fuel =
        sample .frequency { st with filter_implementation := some "standard" }
          index rng k positive_triples slot num_samples fuel) ∧
    (∀ strat m st' k', st.filter_implementation = some "standard" →
      sample strat st index rng k positive_triples slot num_samples fuel = .ok m st' k' →
      st' = st) := by
  constructor
  · intro hf himpl
    unfold sample
    simp only [SamplerState.num_samples, SamplerState.filter_positives,
      SamplerState.vocabulary_size, hf, himpl, filter_and_resample_fast,
      filter_and_resample, raw_negatives, strat_sample_shared, strat_sample]
    simp only [SamplerState.filter_positives] at hf
    simp [hf]
  · intro strat m st' k' himpl hok
    by_cases hf : st.filter_positives slot = true
    · simp only [sample, hf, himpl, if_true] at hok
      simp only [Option.some.injEq, String.reduceEq, if_false, if_true] at hok
      split at hok
      · simp only [SampleResult.ok.injEq] at hok
        exact hok.2.1.symm
      · exact absurd hok (by simp)
    · simp only [sample, Bool.not_eq_true] at hok
      rw [if_neg (by simp [hf])] at hok
      simp only [SampleResult.ok.injEq] at hok
      exact hok.2.1.symm

theorem C8_fast_if_available_resolves_to_standard_witness :
    (sample .frequency
        (SamplerState.mk 2 0 2 true false false false "train" (some "fast_if_available") 5 5
          [indexName "train" S])
        (fun _ _ => [0]) (fun j => j) 0 [(0, 1, 2)] S (some 2) 5 =
      sample .frequency
        (SamplerState.mk 2 0 2 true false false false "train" (some "standard") 5 5
          [indexName "train" S])
        (fun _ _ => [0]) (fun j => j) 0 [(0, 1, 2)] S (some 2) 5) ∧
    ((SamplerState.mk 2 0 2 true false false false "train" (some "standard") 5 5
        [indexName "train" S]) =
      (SamplerState.mk 2 0 2 true false false false "train" (some "standard") 5 5
        [indexName "train" S])) := by
  have h := C8_fast_if_available_resolves_to_standard
    (SamplerState.mk 2 0 2 true false false false "train" (some "fast_if_available") 5 5
      [indexName "train" S])
    (fun _ _ => [0]) (fun j => j) 0 [(0, 1, 2)] S (some 2) 5
  have h2 := C8_fast_if_available_resolves_to_standard
    (SamplerState.mk 2 0 2 true false false false "train" (some "standard") 5 5
      [indexName "train" S])
    (fun _ _ => [0]) (fun j => j) 0 [(0, 1, 2)] S (some 2) 5
  exact ⟨h.1 rfl rfl,
    h2.2 .frequency [[2, 1]]
      (SamplerState.mk 2 0 2 true false false false "train" (some "standard") 5 5
        [indexName "train" S]) 3 rfl (by decide)⟩

theorem resample_loop_eq (drawOne : Nat → Nat) (vals : List Nat → List Nat → List Nat)
    (positives resample_idx row : List Nat) (nf k fuel : Nat) :
    resample_loop drawOne vals positives resample_idx row nf k fuel =
      if resample_idx.length - nf = 0 then some (row, k)
      else
        match fuel with
        | 0 => none
        | fuel + 1 =>
          resample_loop drawOne vals positives resample_idx
            (write_values row
              ((resample_idx.drop nf).take
                (seg_good drawOne positives k (resample_idx.length - nf)).length)
              (vals (fresh_window drawOne k (resample_idx.length - nf))
                (seg_good drawOne positives k (resample_idx.length - nf))))
            (nf + (seg_good drawOne positives k (resample_idx.length - nf)).length)
            (k + (resample_idx.length - nf)) fuel := by
  cases fuel <;> rfl

theorem length_write_values (idxs : List Nat) :
    ∀ (vals row : List Nat), (write_values row idxs vals).length = row.length := by
  induction idxs with
  | nil => intro vals row; rfl
  | cons j idxs ih =>
    intro vals row
    cases vals with
    | nil => rfl
    | cons v vs =>
      show (write_values (row.set j v) idxs vs).length = row.length
      rw [ih, List.length_set]

theorem mem_write_values (idxs : List Nat) :
    ∀ (vals row : List Nat) (v : Nat), v ∈ write_values row idxs vals →
      v ∈ row ∨ v ∈ vals := by
  induction idxs with
  | nil => intro vals row v h; exact Or.inl h
  | cons j idxs ih =>
    intro vals row v h
    cases vals with
    | nil => exact Or.inl h
    | cons a vs =>
      rcases ih vs (row.set j a) v h with h' | h'
      · rcases List.mem_or_eq_of_mem_set h' with h'' | h''
        · exact Or.inl h''
        · exact Or.inr (by simp [h''])
      · exact Or.inr (List.mem_cons_of_mem _ h')

theorem resample_loop_some_basic (drawOne : Nat → Nat)
    (vals : List Nat → List Nat → List Nat) (positives resample_idx : List Nat) :
    ∀ (fuel : Nat) (row : List Nat) (nf k : Nat) (row' : List Nat) (k' : Nat),
      resample_loop drawOne vals positives resample_idx row nf k fuel = some (row', k') →
      row'.length = row.length ∧ k ≤ k' := by
  intro fuel
  induction fuel with
  | zero =>
    intro row nf k row' k' h
    rw [resample_loop_eq] at h
    split at h
    · simp only [Option.some.injEq, Prod.mk.injEq] at h
      obtain ⟨h1, h2⟩ := h
      subst h1; subst h2
      exact ⟨rfl, Nat.le_refl _⟩
    · exact absurd h (by simp)
  | succ fuel ih =>
    intro row nf k row' k' h
    rw [resample_loop_eq] at h
    split at h
    · simp only [Option.some.injEq, Prod.mk.injEq] at h
      obtain ⟨h1, h2⟩ := h
      subst h1; subst h2
      exact ⟨rfl, Nat.le_refl _⟩
    · obtain ⟨hl, hk⟩ := ih _ _ _ _ _ h
      rw [hl, length_write_values]
      exact ⟨rfl, Nat.le_trans (Nat.le_add_right _ _) hk⟩

theorem mem_fresh_window (drawOne : Nat → Nat) (k n v : Nat)
    (h : v ∈ fresh_window drawOne k n) : ∃ j, v = drawOne (k + j) := by
  unfold fresh_window at h
  obtain ⟨j, _, hj⟩ := List.mem_map.1 h
  exact ⟨j, hj.symm⟩

theorem resample_loop_range (V : Nat) (drawOne : Nat → Nat)
    (vals : List Nat → List Nat → List Nat) (positives resample_idx : List Nat)
    (hdraw : ∀ j, drawOne j < V)
    (hvals : ∀ (pos : List Nat) (k n : Nat),
      (∀ v ∈ fresh_window drawOne k n, v < V) →
      ∀ v ∈ vals (fresh_window drawOne k n) (seg_good drawOne pos k n), v < V) :
    ∀ (fuel : Nat) (row : List Nat) (nf k : Nat) (row' : List Nat) (k' : Nat),
      resample_loop drawOne vals positives resample_idx row nf k fuel = some (row', k') →
      (∀ v ∈ row, v < V) → ∀ v ∈ row', v < V := by
  intro fuel
  induction fuel with
  | zero =>
    intro row nf k row' k' h hrow
    rw [resample_loop_eq] at h
    split at h
    · simp only [Option.some.injEq, Prod.mk.injEq] at h
      obtain ⟨h1, h2⟩ := h
      subst h1
      exact hrow
    · exact absurd h (by simp)
  | succ fuel ih =>
    intro row nf k row' k' h hrow
    rw [resample_loop_eq] at h
    split at h
    · simp only [Option.some.injEq, Prod.mk.injEq] at h
      obtain ⟨h1, h2⟩ := h
      subst h1
      exact hrow
    · refine ih _ _ _ _ _ h ?_
      intro v hv
      rcases mem_write_values _ _ _ _ hv with h' | h'
      · exact hrow v h'
      · refine hvals positives _ _ ?_ v h'
        intro w hw
        obtain ⟨j, hj⟩ := mem_fresh_window _ _ _ _ hw
        rw [hj]
        exact hdraw _

theorem filter_rows_map_length (drawOne : Nat → Nat)
    (vals : List Nat → List Nat → List Nat) (positivesOf : Nat × Nat → List Nat) :
    ∀ (prs : List (Nat × Nat)) (rows : List (List Nat)) (k fuel : Nat)
      (rows' : List (List Nat)) (k' : Nat),
      filter_rows drawOne vals positivesOf prs rows k fuel = some (rows', k') →
      rows'.map List.length = rows.map List.length := by
  intro prs
  induction prs with
  | nil =>
    intro rows k fuel rows' k' h
    have h' : some (rows, k) = some (rows', k') := by cases rows <;> exact h
    simp only [Option.some.injEq, Prod.mk.injEq] at h'
    rw [← h'.1]
  | cons pr prs ih =>
    intro rows k fuel rows' k' h
    cases rows with
    | nil =>
      have h' : some (([] : List (List Nat)), k) = some (rows', k') := h
      simp only [Option.some.injEq, Prod.mk.injEq] at h'
      rw [← h'.1]
    | cons row rows =>
      simp only [filter_rows] at h
      split at h
      · rename_i row1 k1 heq
        split at h
        · rename_i rows1 k2 heq2
          simp only [Option.some.injEq, Prod.mk.injEq] at h
          obtain ⟨h1, h2⟩ := h
          subst h1
          simp only [List.map_cons]
          rw [ih _ _ _ _ _ heq2,
            (resample_loop_some_basic _ _ _ _ _ _ _ _ _ _ heq).1]
        · exact absurd h (by simp)
      · exact absurd h (by simp)

theorem filter_rows_range (V : Nat) (drawOne : Nat → Nat)
    (vals : List Nat → List Nat → List Nat) (positivesOf : Nat × Nat → List Nat)
    (hdraw : ∀ j, drawOne j < V)
    (hvals : ∀ (pos : List Nat) (k n : Nat),
      (∀ v ∈ fresh_window drawOne k n, v < V) →
      ∀ v ∈ vals (fresh_window drawOne k n) (seg_good drawOne pos k n), v < V) :
    ∀ (prs : List (Nat × Nat)) (rows : List (List Nat)) (k fuel : Nat)
      (rows' : List (List Nat)) (k' : Nat),
      filter_rows drawOne vals positivesOf prs rows k fuel = some (rows', k') →
      (∀ row ∈ rows, ∀ v ∈ row, v < V) → ∀ row' ∈ rows', ∀ v ∈ row', v < V := by
  intro prs
  induction prs with
  | nil =>
    intro rows k fuel rows' k' h hrows
    have h' : some (rows, k) = some (rows', k') := by cases rows <;> exact h
    simp only [Option.some.injEq, Prod.mk.injEq] at h'
    rw [← h'.1]
    exact hrows
  | cons pr prs ih =>
    intro rows k fuel rows' k' h hrows
    cases rows with
    | nil =>
      have h' : some (([] : List (List Nat)), k) = some (rows', k') := h
      simp only [Option.some.injEq, Prod.mk.injEq] at h'
      rw [← h'.1]
      exact hrows
    | cons row rows =>
      simp only [filter_rows] at h
      split at h
      · rename_i row1 k1 heq
        split at h
        · rename_i rows1 k2 heq2
          simp only [Option.some.injEq, Prod.mk.injEq] at h
          obtain ⟨h1, h2⟩ := h
          subst h1
          intro r hr
          rcases List.mem_cons.1 hr with h' | h'
          · subst h'
            exact resample_loop_range V drawOne vals _ _ hdraw hvals _ _ _ _ _ _ heq
              (fun v hv => hrows row (List.mem_cons_self _ _) v hv)
          · exact ih _ _ _ _ _ heq2
              (fun r2 hr2 v hv => hrows r2 (List.mem_cons_of_mem _ hr2) v hv) r h'
        · exact absurd h (by simp)
      · exact absurd h (by simp)

theorem filter_rows_nil_rows (drawOne : Nat → Nat)
    (vals : List Nat → List Nat → List Nat) (positivesOf : Nat × Nat → List Nat) :
    ∀ (prs : List (Nat × Nat)) (rows : List (List Nat)) (k fuel : Nat),
      (∀ row ∈ rows, row = ([] : List Nat)) →
      filter_rows drawOne vals positivesOf prs rows k fuel = some (rows, k) := by
  intro prs
  induction prs with
  | nil => intro rows k fuel _; cases rows <;> rfl
  | cons pr prs ih =>
    intro rows k fuel hrows
    cases rows with
    | nil => rfl
    | cons row rows =>
      have hrow : row = [] := hrows row (List.mem_cons_self _ _)
      subst hrow
      have hstep : filter_row drawOne vals (positivesOf pr) [] k fuel = some ([], k) := by
        unfold filter_row where_in
        rw [resample_loop_eq]
        simp
      simp only [filter_rows, hstep]
      rw [ih rows k fuel (fun r hr => hrows r (List.mem_cons_of_mem _ hr))]

theorem length_strat_sample (strat : Strategy) (V : Nat) (rng : Nat → Nat) (k b n : Nat) :
    (strat_sample strat V rng k b n).length = b := by
  cases strat
  · simp [strat_sample, uniform_sample_matrix]
  · simp only [strat_sample, frequency_sample_matrix]
    split <;> simp

theorem row_length_strat_sample (strat : Strategy) (V : Nat) (rng : Nat → Nat)
    (k b n : Nat) : ∀ row ∈ strat_sample strat V rng k b n, row.length = n := by
  cases strat
  · intro row hr
    obtain ⟨i, _, hi⟩ := List.mem_map.1 hr
    rw [← hi]
    simp
  · intro row hr
    simp only [strat_sample, frequency_sample_matrix] at hr
    split at hr
    · rename_i hn
      rw [List.eq_of_mem_replicate hr, hn]
      rfl
    · obtain ⟨i, _, hi⟩ := List.mem_map.1 hr
      rw [← hi]
      simp

theorem length_strat_sample_shared (strat : Strategy) (V : Nat) (rng : Nat → Nat)
    (k n : Nat) : (strat_sample_shared strat V rng k n).length = n := by
  have h1 : List.range 1 = [0] := rfl
  unfold strat_sample_shared strat_sample
  cases strat
  · simp [uniform_sample_matrix, h1, Function.comp]
  · unfold frequency_sample_matrix
    by_cases hn : n = 0
    · simp [hn]
    · simp [hn, h1, Function.comp]

theorem range_strat_sample (strat : Strategy) (V : Nat) (rng : Nat → Nat)
    (k b n : Nat) (hV : 0 < V) :
    ∀ row ∈ strat_sample strat V rng k b n, ∀ v ∈ row, v < V := by
  cases strat
  · intro row hr v hv
    obtain ⟨i, _, hi⟩ := List.mem_map.1 hr
    rw [← hi] at hv
    obtain ⟨j, _, hj⟩ := List.mem_map.1 hv
    rw [← hj]
    exact Nat.mod_lt _ hV
  · intro row hr v hv
    simp only [strat_sample, frequency_sample_matrix] at hr
    split at hr
    · rw [List.eq_of_mem_replicate hr] at hv
      exact absurd hv (List.not_mem_nil v)
    · obtain ⟨i, _, hi⟩ := List.mem_map.1 hr
      rw [← hi] at hv
      obtain ⟨j, _, hj⟩ := List.mem_map.1 hv
      rw [← hj]
      exact Nat.mod_lt _ hV

theorem range_strat_sample_shared (strat : Strategy) (V : Nat) (rng : Nat → Nat)
    (k n : Nat) (hV : 0 < V) : ∀ v ∈ strat_sample_shared strat V rng k n, v < V := by
  intro v hv
  unfold strat_sample_shared at hv
  obtain ⟨row, hrow, hv'⟩ := List.mem_flatten.1 hv
  exact range_strat_sample strat V rng k 1 n hV row hrow v hv'

theorem length_raw_negatives (strat : Strategy) (st : SamplerState) (rng : Nat → Nat)
    (k b n : Nat) (slot : Slot) : (raw_negatives strat st rng k b n slot).length = b := by
  unfold raw_negatives
  split
  · simp
  · exact length_strat_sample ..

theorem row_length_raw_negatives (strat : Strategy) (st : SamplerState) (rng : Nat → Nat)
    (k b n : Nat) (slot : Slot) :
    ∀ row ∈ raw_negatives strat st rng k b n slot, row.length = n := by
  unfold raw_negatives
  split
  · intro row hr
    rw [List.eq_of_mem_replicate hr]
    exact length_strat_sample_shared ..
  · intro row hr
    exact row_length_strat_sample _ _ _ _ _ _ row hr

theorem range_raw_negatives (strat : Strategy) (st : SamplerState) (rng : Nat → Nat)
    (k b n : Nat) (slot : Slot) (hV : 0 < st.vocabulary_size slot) :
    ∀ row ∈ raw_negatives strat st rng k b n slot, ∀ v ∈ row,
      v < st.vocabulary_size slot := by
  unfold raw_negatives
  split
  · intro row hr v hv
    rw [List.eq_of_mem_replicate hr] at hv
    exact range_strat_sample_shared strat _ rng k n hV v hv
  · exact range_strat_sample strat _ rng k b n hV

theorem strat_sample_shared_zero (strat : Strategy) (V : Nat) (rng : Nat → Nat) (k : Nat) :
    strat_sample_shared strat V rng k 0 = [] := by
  have h1 : List.range 1 = [0] := rfl
  cases strat <;>
    simp [strat_sample_shared, strat_sample, uniform_sample_matrix,
      frequency_sample_matrix, h1]

theorem strat_sample_zero (strat : Strategy) (V : Nat) (rng : Nat → Nat) (k b : Nat) :
    strat_sample strat V rng k b 0 = List.replicate b [] := by
  cases strat
  · refine List.eq_replicate_iff.2 ⟨by simp [strat_sample, uniform_sample_matrix], ?_⟩
    intro row hr
    obtain ⟨i, _, hi⟩ := List.mem_map.1 hr
    rw [← hi]
    rfl
  · rfl

theorem raw_negatives_zero (strat : Strategy) (st : SamplerState) (rng : Nat → Nat)
    (k b : Nat) (slot : Slot) :
    raw_negatives strat st rng k b 0 slot = List.replicate b [] := by
  unfold raw_negatives
  split
  · rw [strat_sample_shared_zero]
  · exact strat_sample_zero ..

/-- Inversion for a successful `sample` call: the returned matrix is either
the raw matrix untouched (filtering off for the slot), or the result of the
filter engine — `filter_rows` with the strategy's own draw and `std_vals`
(standard path), or with plain uniform draws and `numba_vals` (fast path) —
applied to the raw matrix. -/
theorem sample_ok_cases (strat : Strategy) (st : SamplerState)
    (index : String → Nat × Nat → List Nat) (rng : Nat → Nat) (k : Nat)
    (triples : List (Nat × Nat × Nat)) (slot : Slot) (ns : Option Nat) (fuel : Nat)
    (m : List (List Nat)) (st' : SamplerState) (k' : Nat)
    (h : sample strat st index rng k triples slot ns fuel = .ok m st' k') :
    m = raw_negatives strat st rng k triples.length
        (ns.getD (st.num_samples slot).toNat) slot ∨
    (∃ dOne vals,
      ((dOne = drawOneOf strat (st.vocabulary_size slot) rng ∧ vals = std_vals) ∨
       (dOne = (fun j => rng j % st.vocabulary_size slot) ∧ vals = numba_vals)) ∧
      filter_rows dOne vals (index (indexName st.filtering_split slot))
        (triples.map (pairOf slot))
        (raw_negatives strat st rng k triples.length
          (ns.getD (st.num_samples slot).toNat) slot)
        (if st.shared = true then k + ns.getD (st.num_samples slot).toNat
         else k + triples.length * ns.getD (st.num_samples slot).toNat) fuel =
        some (m, k')) := by
  by_cases hf : st.filter_positives slot = true
  · simp only [sample, hf, if_true] at h
    by_cases h1 : st.filter_implementation = some "fast"
    · rw [if_pos h1] at h
      cases strat
      · simp only [filter_and_resample_fast, filter_and_resample_fast_uniform] at h
        split at h
        · exact absurd h (by simp)
        · exact absurd h (by simp)
        · rename_i m2 k2 heq
          simp only [SampleResult.ok.injEq] at h
          refine Or.inr ⟨_, _, Or.inr ⟨rfl, rfl⟩, ?_⟩
          rw [← h.1, ← h.2.2]
          exact Option.some.inj heq
      · exact absurd h (by simp [filter_and_resample_fast])
    · rw [if_neg h1] at h
      by_cases h2 : st.filter_implementation = some "standard"
      · rw [if_pos h2] at h
        simp only [filter_and_resample] at h
        split at h
        · rename_i m2 k2 heq
          simp only [SampleResult.ok.injEq] at h
          refine Or.inr ⟨_, _, Or.inl ⟨rfl, rfl⟩, ?_⟩
          rw [← h.1, ← h.2.2]
          exact heq
        · exact absurd h (by simp)
      · rw [if_neg h2] at h
        cases strat
        · simp only [filter_and_resample_fast, filter_and_resample_fast_uniform] at h
          split at h
          · rename_i m2 k2 heq
            simp only [SampleResult.ok.injEq] at h
            refine Or.inr ⟨_, _, Or.inr ⟨rfl, rfl⟩, ?_⟩
            rw [← h.1, ← h.2.2]
            exact Option.some.inj heq
          · exact absurd h (by simp)
          · rename_i heq
            exact absurd heq (by simp)
        · simp only [filter_and_resample_fast, filter_and_resample] at h
          split at h
          · rename_i m2 k2 heq
            simp only [SampleResult.ok.injEq] at h
            refine Or.inr ⟨_, _, Or.inl ⟨rfl, rfl⟩, ?_⟩
            rw [← h.1, ← h.2.2]
            exact heq
          · exact absurd h (by simp)
  · simp only [sample, hf, Bool.false_eq_true, if_false] at h
    simp only [SampleResult.ok.injEq] at h
    exact Or.inl h.1.symm

/-- C2, as amended: a successful `sample` call returns a matrix with one row
per batch triple and `n` entries per row, for either strategy; and with
`n = 0` the call returns the `batchSize × 0` matrix with the draw counter
untouched and no error, in every configuration except the one that raises
`NotImplementedError` for every `n` — frequency strategy with filtering
enabled for the slot and `filtering.implementation = "fast"`. -/
theorem C2_sample_shape (strat : Strategy) (st : SamplerState)
    (index : String → Nat × Nat → List Nat) (rng : Nat → Nat) (k : Nat)
    (triples : List (Nat × Nat × Nat)) (slot : Slot) (n fuel : Nat) :
    (∀ m st' k', sample strat st index rng k triples slot (some n) fuel = .ok m st' k' →
      m.length = triples.length ∧ ∀ row ∈ m, row.length = n) ∧
    (n = 0 → ¬(strat = .frequency ∧ st.filter_positives slot = true ∧
        st.filter_implementation = some "fast") →
      ∃ st', sample strat st index rng k triples slot (some n) fuel =
        .ok (List.replicate triples.length []) st' k) := by
  constructor
  · intro m st' k' h
    rcases sample_ok_cases _ _ _ _ _ _ _ _ _ _ _ _ h with hraw | ⟨dOne, vals, _, hfr⟩
    · subst hraw
      refine ⟨length_raw_negatives .., ?_⟩
      intro row hr
      exact row_length_raw_negatives _ _ _ _ _ _ _ row hr
    · have hmap := filter_rows_map_length _ _ _ _ _ _ _ _ _ hfr
      constructor
      · rw [(List.length_map m List.length).symm, hmap, List.length_map,
          length_raw_negatives]
      · intro row hr
        have hmem : row.length ∈ m.map List.length := List.mem_map_of_mem _ hr
        rw [hmap] at hmem
        obtain ⟨r, hrmem, hlen⟩ := List.mem_map.1 hmem
        rw [← hlen]
        exact row_length_raw_negatives _ _ _ _ _ _ _ r hrmem
  · intro hn hnc
    subst hn
    by_cases hf : st.filter_positives slot = true
    · by_cases h1 : st.filter_implementation = some "fast"
      · have hstrat : strat = .uniform := by
          cases strat
          · rfl
          · exact absurd ⟨rfl, hf, h1⟩ hnc
        subst hstrat
        refine ⟨st, ?_⟩
        simp only [sample, hf, if_true, h1, filter_and_resample_fast,
          filter_and_resample_fast_uniform, Option.getD_some, Nat.add_zero,
          Nat.mul_zero, ite_self, raw_negatives_zero]
        rw [filter_rows_nil_rows _ _ _ _ _ _ _
          (fun r hr => List.eq_of_mem_replicate hr)]
      · by_cases h2 : st.filter_implementation = some "standard"
        · refine ⟨st, ?_⟩
          simp only [sample, hf, if_true, h1, h2, if_false,
            filter_and_resample, Option.getD_some, Nat.add_zero,
            Nat.mul_zero, ite_self, raw_negatives_zero]
          rw [filter_rows_nil_rows _ _ _ _ _ _ _
            (fun r hr => List.eq_of_mem_replicate hr)]
          rfl
        · cases strat
          · refine ⟨{ st with filter_implementation := some "fast" }, ?_⟩
            simp only [sample, hf, if_true, h1, h2, if_false,
              filter_and_resample_fast, filter_and_resample_fast_uniform,
              Option.getD_some, Nat.add_zero, Nat.mul_zero, ite_self,
              raw_negatives_zero]
            rw [filter_rows_nil_rows _ _ _ _ _ _ _
              (fun r hr => List.eq_of_mem_replicate hr)]
          · refine ⟨{ st with filter_implementation := some "standard" }, ?_⟩
            simp only [sample, hf, if_true, h1, h2, if_false,
              filter_and_resample_fast, filter_and_resample,
              Option.getD_some, Nat.add_zero, Nat.mul_zero, ite_self,
              raw_negatives_zero]
            rw [filter_rows_nil_rows _ _ _ _ _ _ _
              (fun r hr => List.eq_of_mem_replicate hr)]
    · refine ⟨st, ?_⟩
      simp only [sample, hf, Bool.false_eq_true, if_false, Option.getD_some,
        Nat.add_zero, Nat.mul_zero, ite_self, raw_negatives_zero]

theorem C2_sample_shape_witness :
    (([[0, 1, 2], [3, 4, 5]] : List (List Nat)).length = 2 ∧
      ∀ row ∈ ([[0, 1, 2], [3, 4, 5]] : List (List Nat)), row.length = 3) ∧
    (∃ st', sample .uniform
        (SamplerState.mk 3 0 3 false false false false "train" none 10 7 [])
        (fun _ _ => []) (fun j => j) 0 [(0, 1, 2), (3, 4, 5)] S (some 0) 5 =
      .ok (List.replicate 2 []) st' 0) := by
  have h := C2_sample_shape .uniform
    (SamplerState.mk 3 0 3 false false false false "train" none 10 7 [])
    (fun _ _ => []) (fun j => j) 0 [(0, 1, 2), (3, 4, 5)] S 3 5
  have h0 := C2_sample_shape .uniform
    (SamplerState.mk 3 0 3 false false false false "train" none 10 7 [])
    (fun _ _ => []) (fun j => j) 0 [(0, 1, 2), (3, 4, 5)] S 0 5
  exact ⟨h.1 [[0, 1, 2], [3, 4, 5]]
      (SamplerState.mk 3 0 3 false false false false "train" none 10 7 []) 6
      (by decide),
    h0.2 rfl (by decide)⟩

/-- C2 (counterexample to the claim as stated): a frequency sampler with
filtering enabled for the slot and `filtering.implementation = "fast"` is
accepted at construction, yet its `sample` call with `num_samples = 0`
raises `NotImplementedError` — it does not return the zero-column matrix and
an error does occur, because the filter dispatch runs after the (empty) raw
draw and the frequency strategy lacks the fast filter path. -/
theorem C2_sample_shape_counterexample :
    sample .frequency
        (SamplerState.mk 2 0 2 true false false false "train" (some "fast") 3 3
          [indexName "train" S])
        (fun _ _ => [0]) (fun j => j) 0 [(0, 1, 2)] S (some 0) 5 =
      .notImplemented := by decide

/-- C3: every value in a successfully returned sample matrix lies in
`[0, vocabularySize[slot])` — raw uniform and frequency draws, shared draws,
and the replacement values written by both filter implementations all stay
in range. -/
theorem C3_sample_range (strat : Strategy) (st : SamplerState)
    (index : String → Nat × Nat → List Nat) (rng : Nat → Nat) (k : Nat)
    (triples : List (Nat × Nat × Nat)) (slot : Slot) (ns : Option Nat) (fuel : Nat)
    (m : List (List Nat)) (st' : SamplerState) (k' : Nat)
    (hV : 0 < st.vocabulary_size slot)
    (h : sample strat st index rng k triples slot ns fuel = .ok m st' k') :
    ∀ row ∈ m, ∀ v ∈ row, v < st.vocabulary_size slot := by
  rcases sample_ok_cases _ _ _ _ _ _ _ _ _ _ _ _ h with hraw | ⟨dOne, vals, hdv, hfr⟩
  · rw [hraw]
    exact range_raw_negatives _ _ _ _ _ _ _ hV
  · have hdraw : ∀ j, dOne j < st.vocabulary_size slot := by
      rcases hdv with ⟨hd, _⟩ | ⟨hd, _⟩
      · subst hd
        cases strat <;> intro j <;> exact Nat.mod_lt _ hV
      · subst hd
        intro j
        exact Nat.mod_lt _ hV
    have hvals : ∀ (pos : List Nat) (k0 n0 : Nat),
        (∀ v ∈ fresh_window dOne k0 n0, v < st.vocabulary_size slot) →
        ∀ v ∈ vals (fresh_window dOne k0 n0) (seg_good dOne pos k0 n0),
          v < st.vocabulary_size slot := by
      rcases hdv with ⟨_, hv⟩ | ⟨_, hv⟩ <;> subst hv
      · intro pos k0 n0 hnew v hvmem
        simp only [std_vals, seg_good] at hvmem
        exact hnew v (List.mem_of_mem_filter hvmem)
      · intro pos k0 n0 hnew v hvmem
        simp only [numba_vals] at hvmem
        exact hnew v (List.take_subset _ _ hvmem)
    exact filter_rows_range _ dOne vals _ hdraw hvals _ _ _ _ _ _ hfr
      (range_raw_negatives _ _ _ _ _ _ _ hV)

theorem C3_sample_range_witness :
    (0 : Nat) < 10 ∧ (8 : Nat) < 10 :=
  ⟨by decide,
    C3_sample_range .uniform
      (SamplerState.mk 4 0 4 true false false false "train" (some "standard") 10 7
        [indexName "train" S])
      (fun _ _ => [3, 7]) (fun j => [3, 5, 7, 2, 8, 9].getD j 0) 0 [(1, 2, 3)] S
      (some 4) 5 [[8, 5, 9, 2]]
      (SamplerState.mk 4 0 4 true false false false "train" (some "standard") 10 7
        [indexName "train" S]) 6
      (by decide) (by decide) [8, 5, 9, 2] (by decide) 8 (by decide)⟩

theorem fresh_window_length (drawOne : Nat → Nat) (k n : Nat) :
    (fresh_window drawOne k n).length = n := by
  simp [fresh_window]

theorem fresh_window_add (drawOne : Nat → Nat) (k a b : Nat) :
    fresh_window drawOne k (a + b) =
      fresh_window drawOne k a ++ fresh_window drawOne (k + a) b := by
  unfold fresh_window
  have hf : ((fun j => drawOne (k + j)) ∘ fun x => a + x) =
      fun j => drawOne (k + a + j) := by
    funext j
    simp [Function.comp, Nat.add_assoc]
  rw [List.range_add, List.map_append, List.map_map, hf]

theorem seg_good_append (drawOne : Nat → Nat) (positives : List Nat) (k a b : Nat) :
    seg_good drawOne positives k (a + b) =
      seg_good drawOne positives k a ++ seg_good drawOne positives (k + a) b := by
  unfold seg_good
  rw [fresh_window_add, List.filter_append]

theorem seg_good_length_le (drawOne : Nat → Nat) (positives : List Nat) (k n : Nat) :
    (seg_good drawOne positives k n).length ≤ n := by
  have := List.length_filter_le (fun v => decide (v ∉ positives))
    (fresh_window drawOne k n)
  rwa [fresh_window_length] at this

theorem mem_seg_good (drawOne : Nat → Nat) (positives : List Nat) (k n : Nat) :
    ∀ v ∈ seg_good drawOne positives k n, v ∉ positives := by
  intro v hv
  have := (List.mem_filter.1 hv).2
  exact of_decide_eq_true this

theorem write_values_nil_vals (row idxs : List Nat) :
    write_values row idxs [] = row := by
  cases idxs <;> rfl

theorem write_values_append (a : List Nat) :
    ∀ (u b v row : List Nat), a.length = u.length →
      write_values row (a ++ b) (u ++ v) = write_values (write_values row a u) b v := by
  induction a with
  | nil =>
    intro u b v row h
    rw [List.length_nil] at h
    rw [List.length_eq_zero.1 h.symm]
    rfl
  | cons x xs ih =>
    intro u b v row h
    cases u with
    | nil => exact absurd h (by simp)
    | cons y ys =>
      show write_values (row.set x y) (xs ++ b) (ys ++ v) = _
      rw [ih ys b v (row.set x y) (by simpa using h)]
      rfl

theorem getD_write_values_not_mem (idxs : List Nat) :
    ∀ (vals row : List Nat) (j : Nat), j ∉ idxs →
      (write_values row idxs vals).getD j 0 = row.getD j 0 := by
  induction idxs with
  | nil => intro vals row j _; rfl
  | cons i idxs ih =>
    intro vals row j hj
    cases vals with
    | nil => rfl
    | cons v vs =>
      show (write_values (row.set i v) idxs vs).getD j 0 = _
      rw [ih vs (row.set i v) j (fun hmem => hj (List.mem_cons_of_mem _ hmem))]
      have hne : i ≠ j := fun he => hj (he ▸ List.mem_cons_self _ _)
      simp [List.getD_eq_getElem?_getD, List.getElem?_set_ne hne]

theorem getD_write_values_at (idxs : List Nat) :
    ∀ (vals row : List Nat) (t : Nat), idxs.Nodup → t < idxs.length →
      t < vals.length → idxs.getD t 0 < row.length →
      (write_values row idxs vals).getD (idxs.getD t 0) 0 = vals.getD t 0 := by
  induction idxs with
  | nil => intro vals row t _ ht _ _; exact absurd ht (by simp)
  | cons i idxs ih =>
    intro vals row t hnod ht htv hbound
    cases vals with
    | nil => exact absurd htv (by simp)
    | cons v vs =>
      cases t with
      | zero =>
        show (write_values (row.set i v) idxs vs).getD i 0 = v
        rw [getD_write_values_not_mem idxs vs (row.set i v) i
          (List.nodup_cons.1 hnod).1]
        have hi : i < row.length := by simpa using hbound
        simp [List.getD_eq_getElem?_getD, List.getElem?_set_self, hi]
      | succ t =>
        show (write_values (row.set i v) idxs vs).getD ((i :: idxs).getD (t + 1) 0) 0 = _
        have h1 : (i :: idxs).getD (t + 1) 0 = idxs.getD t 0 := rfl
        rw [h1]
        have := ih vs (row.set i v) t (List.nodup_cons.1 hnod).2
          (by simpa using ht) (by simpa using htv)
          (by rw [List.length_set]; exact h1 ▸ hbound)
        exact this

theorem mem_where_in_false (a positives : List Nat) (j : Nat) :
    j ∈ where_in a positives false ↔ j < a.length ∧ a.getD j 0 ∈ positives := by
  unfold where_in
  simp [List.mem_filter, List.mem_range]

theorem nodup_where_in (a positives : List Nat) (b : Bool) :
    (where_in a positives b).Nodup :=
  (List.nodup_range a.length).filter _

theorem where_in_lt_length (a positives : List Nat) (b : Bool) :
    ∀ j ∈ where_in a positives b, j < a.length := by
  intro j hj
  unfold where_in at hj
  exact List.mem_range.1 (List.mem_filter.1 hj).1

/-- Invariant of the standard resample loop: a successful run consumes the
stream positions `[k, k')`, its accepted draws are exactly the
non-positives among those consecutive fresh draws, there are exactly as many
of them as unresolved colliding positions, and the final row is the initial
row with those accepted draws written at the remaining colliding positions
in order. -/
theorem resample_loop_std_writes (drawOne : Nat → Nat) (positives resample_idx : List Nat) :
    ∀ (fuel : Nat) (row : List Nat) (nf k : Nat) (row' : List Nat) (k' : Nat),
      resample_loop drawOne std_vals positives resample_idx row nf k fuel = some (row', k') →
      k ≤ k' ∧
      (seg_good drawOne positives k (k' - k)).length = resample_idx.length - nf ∧
      row' = write_values row (resample_idx.drop nf)
        (seg_good drawOne positives k (k' - k)) := by
  intro fuel
  induction fuel with
  | zero =>
    intro row nf k row' k' h
    rw [resample_loop_eq] at h
    split at h
    · rename_i hrem
      simp only [Option.some.injEq, Prod.mk.injEq] at h
      obtain ⟨h1, h2⟩ := h
      subst h1; subst h2
      refine ⟨Nat.le_refl _, ?_, ?_⟩
      · simp [seg_good, fresh_window, hrem]
      · rw [Nat.sub_self]
        have : seg_good drawOne positives k 0 = [] := rfl
        rw [this, write_values_nil_vals]
    · exact absurd h (by simp)
  | succ fuel ih =>
    intro row nf k row' k' h
    rw [resample_loop_eq] at h
    split at h
    · rename_i hrem
      simp only [Option.some.injEq, Prod.mk.injEq] at h
      obtain ⟨h1, h2⟩ := h
      subst h1; subst h2
      refine ⟨Nat.le_refl _, ?_, ?_⟩
      · simp [seg_good, fresh_window, hrem]
      · rw [Nat.sub_self]
        have : seg_good drawOne positives k 0 = [] := rfl
        rw [this, write_values_nil_vals]
    · rename_i hrem
      obtain ⟨hk, hlen, hrow⟩ := ih _ _ _ _ _ h
      have hrem1 : 1 ≤ resample_idx.length - nf := Nat.one_le_iff_ne_zero.2 hrem
      have htle : (seg_good drawOne positives k (resample_idx.length - nf)).length ≤
          resample_idx.length - nf := seg_good_length_le ..
      have hsplit : k' - k = (resample_idx.length - nf) + (k' - (k + (resample_idx.length - nf))) := by
        omega
      refine ⟨by omega, ?_, ?_⟩
      · rw [hsplit, seg_good_append, List.length_append, hlen]
        omega
      · rw [hrow, hsplit, seg_good_append]
        simp only [std_vals]
        rw [← write_values_append
          ((resample_idx.drop nf).take
            (seg_good drawOne positives k (resample_idx.length - nf)).length)
          (seg_good drawOne positives k (resample_idx.length - nf))
          (resample_idx.drop
            (nf + (seg_good drawOne positives k (resample_idx.length - nf)).length))
          (seg_good drawOne positives (k + (resample_idx.length - nf))
            (k' - (k + (resample_idx.length - nf))))
          row
          (by rw [List.length_take, List.length_drop]; omega)]
        congr 1
        have hdd : resample_idx.drop
            (nf + (seg_good drawOne positives k (resample_idx.length - nf)).length) =
            (resample_idx.drop nf).drop
              (seg_good drawOne positives k (resample_idx.length - nf)).length := by
          rw [List.drop_drop, Nat.add_comm]
        rw [hdd, List.take_append_drop]

/-- C4: for the standard filter, positions whose original entry is not a
positive keep their original value, and the t-th colliding position of the
row receives the t-th accepted fresh draw (a non-positive), in order. -/
theorem C4_standard_filter_frame_and_order (drawOne : Nat → Nat)
    (positives row : List Nat) (k fuel : Nat) (row' : List Nat) (k' : Nat)
    (h : filter_row drawOne std_vals positives row k fuel = some (row', k')) :
    row'.length = row.length ∧
    (∀ j, j < row.length → row.getD j 0 ∉ positives → row'.getD j 0 = row.getD j 0) ∧
    (seg_good drawOne positives k (k' - k)).length =
      (where_in row positives false).length ∧
    (∀ t, t < (where_in row positives false).length →
      row'.getD ((where_in row positives false).getD t 0) 0 =
        (seg_good drawOne positives k (k' - k)).getD t 0) ∧
    (∀ v ∈ seg_good drawOne positives k (k' - k), v ∉ positives) := by
  unfold filter_row at h
  obtain ⟨hk, hlen, hrow⟩ := resample_loop_std_writes _ _ _ _ _ _ _ _ _ h
  rw [List.drop_zero] at hrow
  rw [Nat.sub_zero] at hlen
  have hlength : row'.length = row.length :=
    (resample_loop_some_basic _ _ _ _ _ _ _ _ _ _ h).1
  refine ⟨hlength, ?_, hlen, ?_, fun v hv => mem_seg_good drawOne positives k (k' - k) v hv⟩
  · intro j hj hjpos
    rw [hrow]
    apply getD_write_values_not_mem
    intro hmem
    exact hjpos ((mem_where_in_false row positives j).1 hmem).2
  · intro t ht
    rw [hrow]
    apply getD_write_values_at _ _ _ _ (nodup_where_in ..) ht (by omega)
    have hmem : (where_in row positives false).getD t 0 ∈ where_in row positives false := by
      rw [List.getD_eq_getElem _ _ ht]
      exact List.getElem_mem ht
    exact where_in_lt_length _ _ _ _ hmem

theorem C4_standard_filter_frame_and_order_witness :
    ([8, 5, 9, 2] : List Nat).length = ([3, 5, 7, 2] : List Nat).length ∧
    (∀ j, j < ([3, 5, 7, 2] : List Nat).length →
      ([3, 5, 7, 2] : List Nat).getD j 0 ∉ ([3, 7] : List Nat) →
      ([8, 5, 9, 2] : List Nat).getD j 0 = ([3, 5, 7, 2] : List Nat).getD j 0) ∧
    (seg_good (fun j => [8, 9].getD j 0) [3, 7] 0 (2 - 0)).length =
      (where_in [3, 5, 7, 2] [3, 7] false).length ∧
    (∀ t, t < (where_in [3, 5, 7, 2] [3, 7] false).length →
      ([8, 5, 9, 2] : List Nat).getD ((where_in [3, 5, 7, 2] [3, 7] false).getD t 0) 0 =
        (seg_good (fun j => [8, 9].getD j 0) [3, 7] 0 (2 - 0)).getD t 0) ∧
    (∀ v ∈ seg_good (fun j => [8, 9].getD j 0) [3, 7] 0 (2 - 0), v ∉ ([3, 7] : List Nat)) :=
  C4_standard_filter_frame_and_order (fun j => [8, 9].getD j 0) [3, 7] [3, 5, 7, 2]
    0 5 [8, 5, 9, 2] 2 (by decide)

theorem resample_loop_no_good_none (drawOne : Nat → Nat)
    (vals : List Nat → List Nat → List Nat) (positives resample_idx : List Nat)
    (hall : ∀ j, drawOne j ∈ positives) :
    ∀ (fuel : Nat) (row : List Nat) (nf k : Nat),
      resample_idx.length - nf ≠ 0 →
      resample_loop drawOne vals positives resample_idx row nf k fuel = none := by
  intro fuel
  induction fuel with
  | zero =>
    intro row nf k hrem
    rw [resample_loop_eq]
    simp [hrem]
  | succ fuel ih =>
    intro row nf k hrem
    have hseg : seg_good drawOne positives k (resample_idx.length - nf) = [] := by
      unfold seg_good
      rw [List.filter_eq_nil_iff]
      intro v hvmem
      obtain ⟨j, hj⟩ := mem_fresh_window _ _ _ _ hvmem
      subst hj
      simp [hall (k + j)]
    rw [resample_loop_eq, if_neg hrem]
    exact ih _ _ _ (by rw [hseg]; simpa using hrem)

theorem resample_loop_fair_terminates (drawOne : Nat → Nat)
    (vals : List Nat → List Nat → List Nat) (positives resample_idx : List Nat)
    (H : ∀ m, ∃ j, m ≤ j ∧ drawOne j ∉ positives) :
    ∀ (rbound nf : Nat) (row : List Nat) (k : Nat),
      resample_idx.length - nf ≤ rbound →
      ∃ fuel out,
        resample_loop drawOne vals positives resample_idx row nf k fuel = some out := by
  intro rbound
  induction rbound with
  | zero =>
    intro nf row k h0
    exact ⟨0, (row, k), by rw [resample_loop_eq, if_pos (Nat.le_zero.1 h0)]⟩
  | succ r ihr =>
    have inner : ∀ (d nf : Nat) (row : List Nat) (k : Nat),
        resample_idx.length - nf ≤ r + 1 →
        (∃ j, k ≤ j ∧ j < k + d ∧ drawOne j ∉ positives) →
        ∃ fuel out,
          resample_loop drawOne vals positives resample_idx row nf k fuel = some out := by
      intro d
      induction d using Nat.strong_induction_on with
      | _ d ihd =>
        intro nf row k hle hex
        obtain ⟨j, hkj, hjd, hgood⟩ := hex
        by_cases hrem : resample_idx.length - nf = 0
        · exact ⟨0, (row, k), by rw [resample_loop_eq, if_pos hrem]⟩
        · by_cases ht : (seg_good drawOne positives k (resample_idx.length - nf)).length = 0
          · have hseg : seg_good drawOne positives k (resample_idx.length - nf) = [] :=
              List.length_eq_zero.1 ht
            have hjge : k + (resample_idx.length - nf) ≤ j := by
              by_contra hlt
              push_neg at hlt
              have hmem : drawOne j ∈
                  seg_good drawOne positives k (resample_idx.length - nf) := by
                apply List.mem_filter.2
                refine ⟨?_, by simpa using hgood⟩
                apply List.mem_map.2
                exact ⟨j - k, List.mem_range.2 (by omega), by congr 1; omega⟩
              rw [hseg] at hmem
              exact absurd hmem (List.not_mem_nil _)
            obtain ⟨fuel, out, hout⟩ := ihd (d - (resample_idx.length - nf))
              (by omega)
              (nf + (seg_good drawOne positives k (resample_idx.length - nf)).length)
              (write_values row
                ((resample_idx.drop nf).take
                  (seg_good drawOne positives k (resample_idx.length - nf)).length)
                (vals (fresh_window drawOne k (resample_idx.length - nf))
                  (seg_good drawOne positives k (resample_idx.length - nf))))
              (k + (resample_idx.length - nf))
              (by omega)
              ⟨j, by omega, by omega, hgood⟩
            exact ⟨fuel + 1, out, by rw [resample_loop_eq, if_neg hrem]; exact hout⟩
          · obtain ⟨fuel, out, hout⟩ := ihr
              (nf + (seg_good drawOne positives k (resample_idx.length - nf)).length)
              (write_values row
                ((resample_idx.drop nf).take
                  (seg_good drawOne positives k (resample_idx.length - nf)).length)
                (vals (fresh_window drawOne k (resample_idx.length - nf))
                  (seg_good drawOne positives k (resample_idx.length - nf))))
              (k + (resample_idx.length - nf))
              (by omega)
            exact ⟨fuel + 1, out, by rw [resample_loop_eq, if_neg hrem]; exact hout⟩
    intro nf row k hle
    obtain ⟨j, hj, hgood⟩ := H k
    exact inner (j + 1 - k) nf row k hle ⟨j, hj, by omega, hgood⟩

/-- C5: the rejection loop of the filter engine, for either write scheme:
(1) whenever the draw stream keeps producing values outside the positive set
— the rendering of randomness under the documented precondition
`|P_i| < vocabularySize` — the loop terminates with some fuel;
(2) when some vocabulary value is not a positive, the uniform draw stream
does keep producing such values, so the precondition makes (1) applicable;
(3) when the positive set covers the whole vocabulary (the violated
precondition), the loop returns `none` for every fuel — it never terminates,
and no error is raised. -/
theorem C5_resample_termination_iff_precondition :
    (∀ (drawOne : Nat → Nat) (vals : List Nat → List Nat → List Nat)
        (positives resample_idx row : List Nat) (nf k : Nat),
      (∀ m, ∃ j, m ≤ j ∧ drawOne j ∉ positives) →
      ∃ fuel out,
        resample_loop drawOne vals positives resample_idx row nf k fuel = some out) ∧
    (∀ (V : Nat) (positives : List Nat),
      0 < V → (∃ v, v < V ∧ v ∉ positives) →
      ∀ m, ∃ j, m ≤ j ∧ drawOneOf .uniform V (fun i => i) j ∉ positives) ∧
    (∀ (V : Nat) (rng : Nat → Nat) (vals : List Nat → List Nat → List Nat)
        (positives resample_idx row : List Nat) (nf k : Nat),
      0 < V → (∀ v, v < V → v ∈ positives) →
      resample_idx.length - nf ≠ 0 →
      ∀ fuel,
        resample_loop (fun j => rng j % V) vals positives resample_idx row nf k fuel =
          none) := by
  refine ⟨?_, ?_, ?_⟩
  · intro drawOne vals positives resample_idx row nf k H
    exact resample_loop_fair_terminates drawOne vals positives resample_idx H
      (resample_idx.length - nf) nf row k (Nat.le_refl _)
  · intro V positives hV hex m
    obtain ⟨v, hvV, hvp⟩ := hex
    refine ⟨v + V * m, ?_, ?_⟩
    · calc m ≤ V * m := Nat.le_mul_of_pos_left m hV
        _ ≤ v + V * m := Nat.le_add_left _ _
    · show (v + V * m) % V ∉ positives
      rw [Nat.add_mul_mod_self_left, Nat.mod_eq_of_lt hvV]
      exact hvp
  · intro V rng vals positives resample_idx row nf k hV hcov hrem fuel
    exact resample_loop_no_good_none _ vals positives resample_idx
      (fun j => hcov _ (Nat.mod_lt _ hV)) fuel row nf k hrem

theorem C5_resample_termination_iff_precondition_witness :
    (∃ fuel out,
      resample_loop (fun i => i % 3) std_vals [0, 1] [0] [5] 0 0 fuel = some out) ∧
    (∀ m, ∃ j, m ≤ j ∧ drawOneOf .uniform 3 (fun i => i) j ∉ ([0, 1] : List Nat)) ∧
    (∀ fuel,
      resample_loop (fun j => (fun i => i) j % 1) std_vals [0] [0] [0] 0 0 fuel =
        none) := by
  have h := C5_resample_termination_iff_precondition
  refine ⟨?_, ?_, ?_⟩
  · exact h.1 (fun i => i % 3) std_vals [0, 1] [0] [5] 0 0
      (fun m => ⟨3 * m + 2, by omega, by
        show (3 * m + 2) % 3 ∉ [0, 1]
        have h3 : (3 * m + 2) % 3 = 2 := by omega
        rw [h3]
        decide⟩)
  · exact h.2.1 3 [0, 1] (by decide) ⟨2, by decide, by decide⟩
  · exact h.2.2 1 (fun i => i) std_vals [0] [0] [0] 0 0 (by decide)
      (fun v hv => by
        have hv0 : v = 0 := Nat.lt_one_iff.1 hv
        rw [hv0]
        decide) (by decide)

/-- C1: the numba fast filter writes `new_samples[ctr]` — the first fresh
draws, accepted or not — instead of the accepted draws `new_samples[idx]`,
contradicting its own comment "write the true negatives found" and the
standard implementation.  Concretely: vocabulary 3, positives `{0}` for the
batch's single pair, raw row `[0, 0]`, fresh draws `0, 1, 1`: the fast path
returns row `[0, 1]`, whose first entry `0` is a positive, while the
standard implementation on the same draws returns the collision-free
`[1, 1]`. -/
theorem C1_fast_filter_writes_unfiltered_draws :
    (sample .uniform
        (SamplerState.mk 2 0 2 true false false false "train" (some "fast") 3 3
          [indexName "train" S])
        (fun _ _ => [0]) (fun j => [0, 0, 0, 1, 1].getD j 1) 0 [(0, 1, 2)] S
        (some 2) 9 =
      .ok [[0, 1]]
        (SamplerState.mk 2 0 2 true false false false "train" (some "fast") 3 3
          [indexName "train" S]) 5) ∧
    (0 ∈ (fun (_ : String) (_ : Nat × Nat) => ([0] : List Nat))
      (indexName "train" S) (pairOf S (0, 1, 2))) ∧
    (sample .uniform
        (SamplerState.mk 2 0 2 true false false false "train" (some "standard") 3 3
          [indexName "train" S])
        (fun _ _ => [0]) (fun j => [0, 0, 0, 1, 1].getD j 1) 0 [(0, 1, 2)] S
        (some 2) 9 =
      .ok [[1, 1]]
        (SamplerState.mk 2 0 2 true false false false "train" (some "standard") 3 3
          [indexName "train" S]) 5) := by decide

